import Mathlib

/-!
Verification development for the `ClassOutlineExt` outline extension
(`src/ClassOutlineExt.py`): a shallow embedding of its symbol extractor,
call collector, tree reconciler and search engine, with theorems checking
the natural-language specification against the code.

Host-language and host-library facilities that the code calls but that are
not part of the repository (the `ast` parser, `hashlib` fingerprints, the
`re` regular-expression engine, the `tkinter` tree widget) are represented
explicitly: the parser and the fingerprint are taken as parameters of
`update`, the regular-expression engine is an oracle record, and the tree
widget is the concrete `TreeNode` forest that the code builds through it.
-/

namespace ClassOutline

/-- Python expressions, restricted to the forms the extension's visitors
distinguish: names, attribute accesses, calls, lambdas, subscripts, and an
opaque constant standing for every other expression form. -/
inductive Expr where
  | name (id : String)
  | attrAccess (value : Expr) (attr : String)
  | call (func : Expr) (args : List Expr) (lineno : Nat)
  | lambda (body : Expr)
  | subscript (value : Expr) (index : Expr)
  | const

/-- Python statements, restricted to what `_update.visit` distinguishes:
class definitions, (async) function definitions, expression statements and
a generic compound statement `other` carrying its directly contained
expressions and its `body` list of sub-statements. -/
inductive Stmt where
  | classDef (name : String) (lineno : Nat) (body : List Stmt)
  | funcDef (name : String) (lineno : Nat) (body : List Stmt)
  | asyncFuncDef (name : String) (lineno : Nat) (body : List Stmt)
  | exprStmt (value : Expr)
  | other (exprs : List Expr) (body : List Stmt)

/-- The attribute-chain walk of `_format_callee`: the Python loop collects
`cur.attr` going inward and finally appends the base name (or `"<expr>"`
when the innermost receiver is not a bare name), then reverses; this
function produces that reversed (left-to-right) list directly. -/
def chainParts : Expr → List String
  | .attrAccess v a => chainParts v ++ [a]
  | .name id => [id]
  | _ => ["<expr>"]

/-- `_format_callee`: label for an `ast.Call.func` expression. -/
def format_callee : Expr → String
  | .name id => id
  | .attrAccess v a => String.intercalate "." (chainParts (.attrAccess v a))
  | _ => "<call>"

mutual

/-- Calls collected by the `CV` visitor of `_collect_calls` inside one
expression: every `ast.Call` node in pre-order, labelled by
`_format_callee`, paired with its line. -/
def callsInExpr : Expr → List (String × Nat)
  | .name _ => []
  | .attrAccess v _ => callsInExpr v
  | .call f args ln => (format_callee f, ln) :: (callsInExpr f ++ callsInExprs args)
  | .lambda b => callsInExpr b
  | .subscript v ix => callsInExpr v ++ callsInExpr ix
  | .const => []

def callsInExprs : List Expr → List (String × Nat)
  | [] => []
  | e :: rest => callsInExpr e ++ callsInExprs rest
end

mutual

/-- Calls collected by the `CV` visitor from one statement: the visitor
overrides `visit_FunctionDef`, `visit_AsyncFunctionDef` and
`visit_ClassDef` with `pass`, so nested definitions contribute nothing;
all other statements are traversed generically. -/
def callsInStmt : Stmt → List (String × Nat)
  | .classDef _ _ _ => []
  | .funcDef _ _ _ => []
  | .asyncFuncDef _ _ _ => []
  | .exprStmt e => callsInExpr e
  | .other es body => callsInExprs es ++ callsInStmts body

def callsInStmts : List Stmt → List (String × Nat)
  | [] => []
  | s :: rest => callsInStmt s ++ callsInStmts rest
end

/-- The de-duplication loop at the end of `_collect_calls`: keep the first
occurrence of each `(label, line)` pair, preserving order. -/
def dedupCalls : List (String × Nat) → List (String × Nat) → List (String × Nat)
  | [], _ => []
  | x :: xs, seen => if x ∈ seen then dedupCalls xs seen else x :: dedupCalls xs (x :: seen)

/-- `_collect_calls`: walk only the direct statement body of a function
(the Python code iterates `func_node.body`), then de-duplicate. The
`current_class` parameter of the Python function is never read, so it is
omitted. -/
def collect_calls (body : List Stmt) : List (String × Nat) :=
  dedupCalls (callsInStmts body) []

mutual
/-- Erase the body of every nested class/function definition, at every
depth — directly in a statement list or inside the body of a compound
statement. Two statement lists with equal scrubbings differ only in the
contents of nested definition bodies. -/
def scrubStmt : Stmt → Stmt
  | .classDef n ln _ => .classDef n ln []
  | .funcDef n ln _ => .funcDef n ln []
  | .asyncFuncDef n ln _ => .asyncFuncDef n ln []
  | .exprStmt e => .exprStmt e
  | .other es b => .other es (scrubStmts b)

def scrubStmts : List Stmt → List Stmt
  | [] => []
  | s :: rest => scrubStmt s :: scrubStmts rest
end

/-- One extraction record `(qual, kind, lineno, parent_qual)` as appended
to `items` by `_update.visit`. -/
structure Item where
  qual : String
  kind : String
  lineno : Nat
  parent : Option String
deriving DecidableEq, Repr

/-- Qualified-name construction of `_update.visit`:
`f"{parent_qual}.{n.name}" if parent_qual else n.name`. -/
def mkQual : Option String → String → String
  | none, n => n
  | some p, n => p ++ "." ++ n

mutual

/-- `_update.visit` on one statement: extraction records in pre-order plus
the `_func_calls` entries (in insertion order). The `class_stack` argument
of the Python code only feeds the unused `current_class` parameter and is
omitted. -/
def visitStmt : Stmt → Option String → List Item × List (String × List (String × Nat))
  | .classDef name ln body, p =>
      let qual := mkQual p name
      let r := visitStmts body (some qual)
      (⟨qual, "class", ln, p⟩ :: r.1, r.2)
  | .funcDef name ln body, p =>
      let qual := mkQual p name
      let r := visitStmts body (some qual)
      (⟨qual, "def", ln, p⟩ :: r.1, (qual, collect_calls body) :: r.2)
  | .asyncFuncDef name ln body, p =>
      let qual := mkQual p name
      let r := visitStmts body (some qual)
      (⟨qual, "async def", ln, p⟩ :: r.1, (qual, collect_calls body) :: r.2)
  | .exprStmt _, _ => ([], [])
  | .other _ body, p => visitStmts body p

def visitStmts : List Stmt → Option String → List Item × List (String × List (String × Nat))
  | [], _ => ([], [])
  | s :: rest, p =>
      let r₁ := visitStmt s p
      let r₂ := visitStmts rest p
      (r₁.1 ++ r₂.1, r₁.2 ++ r₂.2)
end

/-- One item of the displayed `ttk.Treeview`: its identity string, display
text, `values` payload (the line number, or empty for the calls header),
its open flag, and its children in display order. `sym` is a bookkeeping
marker recording which insert site created the node: `true` for the
class/function inserts of `insert_children`, `false` for the synthetic
calls header and call leaves. -/
structure TreeNode where
  iid : String
  text : String
  values : List Nat
  isOpen : Bool
  sym : Bool
  children : List TreeNode

/-- The displayed tree surface: root items plus the current selection. -/
structure Tree where
  roots : List TreeNode
  selection : List String

mutual

/-- All items of a subtree in document (pre-)order, the root included. -/
def subtreeNodes : TreeNode → List TreeNode
  | ⟨iid, text, values, op, sym, children⟩ =>
      ⟨iid, text, values, op, sym, children⟩ :: forestNodes children

/-- All items of a forest in document (pre-)order. -/
def forestNodes : List TreeNode → List TreeNode
  | [] => []
  | nd :: rest => subtreeNodes nd ++ forestNodes rest
end

/-- Identities of all displayed items (`all_iids` of `_set_tree_items`). -/
def allIids (roots : List TreeNode) : List String :=
  (forestNodes roots).map (·.iid)

/-- The expanded identities captured before a rebuild: every displayed item
whose `open` flag is set (`prev_expanded`). -/
def expandedIids (roots : List TreeNode) : List String :=
  ((forestNodes roots).filter (·.isOpen)).map (·.iid)

/-- `children.sort(key=lambda t: t[2])`: stable sort by line number
(insertion sort places an element before the first strictly greater key,
preserving the original order of equal keys exactly as Python's stable
sort does). -/
def sortByLine (l : List (String × String × Nat)) : List (String × String × Nat) :=
  List.insertionSort (fun a b => a.2.2 ≤ b.2.2) l

/-- A fresh auto-generated item identity, standing for the identity the
tree widget invents when `insert` is called without a usable `iid` (the
`except` branches of `_set_tree_items`): the first identity of the form
`I<k>` not already in use. -/
def freshAuto (used : List String) (ctr : Nat) : String :=
  (((List.range (used.length + 1)).map (fun k => "I" ++ toString (ctr + k))).find?
      (fun s => !(used.contains s))).getD ("I" ++ toString ctr)

/-- One `insert` call: use the requested identity if it is still free,
otherwise (the `except Exception` branch) fall back to an auto-generated
one. Returns the identity actually used, the updated used set and the
updated auto counter. -/
def allocIid (used : List String) (ctr : Nat) (cand : String) :
    String × List String × Nat :=
  if used.contains cand then
    let a := freshAuto used ctr
    (a, a :: used, ctr + 1)
  else (cand, cand :: used, ctr)

/-- `self._func_calls.get(qual, [])`: the call map is a Python dict, so a
later assignment to the same key overwrites an earlier one; on the
insertion-ordered entry list this is the last matching entry. -/
def lookupCalls (fc : List (String × List (String × Nat))) (qual : String) :
    List (String × Nat) :=
  match (fc.filter (fun e => e.1 == qual)).getLast? with
  | some e => e.2
  | none => []

/-- The call-leaf rows inserted under the `calls:` header, one per entry of
the function's call list, with positional identities
`qual::call::idx:line`. -/
def buildCallLeaves (qual : String) :
    List (String × Nat) → Nat → List String → Nat → List TreeNode × List String × Nat
  | [], _, used, ctr => ([], used, ctr)
  | (label, cln) :: rest, idx, used, ctr =>
      let a := allocIid used ctr (qual ++ "::call::" ++ toString idx ++ ":" ++ toString cln)
      let nd : TreeNode := ⟨a.1, "→ " ++ label ++ "  (L" ++ toString cln ++ ")",
        [cln], false, false, []⟩
      let r := buildCallLeaves qual rest (idx + 1) a.2.1 a.2.2
      (nd :: r.1, r.2.1, r.2.2)

/-- The calls subtree of a function row: nothing when its call list is
empty, otherwise a single `calls:` header (identity `qual::calls`, empty
`values`) holding one leaf per call. -/
def buildCallsSubtree (fc : List (String × List (String × Nat))) (qual : String)
    (used : List String) (ctr : Nat) : List TreeNode × List String × Nat :=
  let calls := lookupCalls fc qual
  if calls.isEmpty then ([], used, ctr)
  else
    let h := allocIid used ctr (qual ++ "::calls")
    let leaves := buildCallLeaves qual calls 0 h.2.1 h.2.2
    ([⟨h.1, "calls:", [], false, false, leaves.1⟩], leaves.2.1, leaves.2.2)

/-- Split a character list at every occurrence of `sep` (the semantics of
Python's `str.split` with a one-character separator: n separators yield
n+1 pieces, empty pieces included). -/
def splitOnChar (sep : Char) : List Char → List (List Char)
  | [] => [[]]
  | c :: cs =>
      match splitOnChar sep cs with
      | [] => [[c]]
      | g :: gs => if c == sep then [] :: g :: gs else (c :: g) :: gs

/-- `qual.split(".")[-1]`. -/
def shortNameOf (qual : String) : String :=
  String.mk ((splitOnChar '.' qual.data).getLastD [])

/-- The display text of a class/function row:
`f"{short_name}  —  {kind}  (L{lineno})"`. -/
def symText (qual kind : String) (lineno : Nat) : String :=
  shortNameOf qual ++ "  —  " ++ kind ++ "  (L" ++ toString lineno ++ ")"

/-- The calls subtree step of `insert_children`: only rows of kind `def`
or `async def` get one. -/
def callsPartOf (fc : List (String × List (String × Nat))) (kind qual : String)
    (used : List String) (ctr : Nat) : List TreeNode × List String × Nat :=
  if kind == "def" || kind == "async def" then buildCallsSubtree fc qual used ctr
  else ([], used, ctr)

/-- The body of `insert_children` for one (already sorted) sibling list:
insert each class/function row, recurse into its own children through
`build` (the recursive call at one less fuel), then append the calls
subtree for function rows. -/
def insertLevel (build : Option String → List String → Nat → List TreeNode × List String × Nat)
    (fc : List (String × List (String × Nat))) :
    List (String × String × Nat) → List String → Nat → List TreeNode × List String × Nat
  | [], used, ctr => ([], used, ctr)
  | (qual, kind, lineno) :: rest, used, ctr =>
      let a := allocIid used ctr qual
      let sub := build (some qual) a.2.1 a.2.2
      let cp := callsPartOf fc kind qual sub.2.1 sub.2.2
      let nd : TreeNode := ⟨a.1, symText qual kind lineno, [lineno], false, true,
        sub.1 ++ cp.1⟩
      let r := insertLevel build fc rest cp.2.1 cp.2.2
      (nd :: r.1, r.2.1, r.2.2)

/-- `insert_children(parent_iid, parent_qual)`: look the sibling list up in
the parent-to-children mapping, sort it by line, and insert it. The Python
recursion is bounded only by the acyclicity of the parent references that
real extractions produce; the embedding makes the bound explicit as fuel
(`_set_tree_items` passes more fuel than any acyclic item list can use, so
the two agree on every input on which the Python code terminates). -/
def insertChildren (fc : List (String × List (String × Nat)))
    (mapping : Option String → List (String × String × Nat)) :
    Nat → Option String → List String → Nat → List TreeNode × List String × Nat
  | 0, _, used, ctr => ([], used, ctr)
  | fuel + 1, pq, used, ctr =>
      insertLevel (fun q u c => insertChildren fc mapping fuel q u c) fc
        (sortByLine (mapping pq)) used ctr

/-- `mapping.setdefault(parent, []).append(...)` over all items: the
children of one parent key, in item order. -/
def mappingOf (items : List Item) (p : Option String) : List (String × String × Nat) :=
  (items.filter (fun it => it.parent == p)).map (fun it => (it.qual, it.kind, it.lineno))

mutual

/-- The expanded-state restoration loop: an item's `open` flag is set when
its identity is in the captured `prev_expanded` set (the loop also skips a
falsy, i.e. empty, identity); identities of `prev_expanded` that no longer
exist are silently skipped. -/
def restoreNode (prevExp : List String) : TreeNode → TreeNode
  | ⟨iid, text, values, op, sym, children⟩ =>
      ⟨iid, text, values, op || (!(iid == "") && prevExp.contains iid), sym,
        restoreForest prevExp children⟩

def restoreForest (prevExp : List String) : List TreeNode → List TreeNode
  | [] => []
  | nd :: rest => restoreNode prevExp nd :: restoreForest prevExp rest
end

/-- `_set_tree_items`: capture expanded identities and the selection, clear
the tree, rebuild it from the item list (the widget starts out empty: only
the root pseudo-item's empty identity is in use), restore the open flags of
surviving identities, and restore the selection to its surviving subset
(when no selected identity survives, `selection_set` is not called and the
selection stays empty after the clearing). -/
def set_tree_items (t : Tree) (fc : List (String × List (String × Nat)))
    (items : List Item) : Tree :=
  let prevExpanded := expandedIids t.roots
  let prevSelection := t.selection
  let built := insertChildren fc (mappingOf items) (items.length + 1) none [""] 0
  let roots := restoreForest prevExpanded built.1
  let newSel := prevSelection.filter (fun s => (allIids roots).contains s)
  { roots := roots, selection := if newSel.isEmpty then [] else newSel }

/-- The state of the extension that `_update` reads and writes: the stored
fingerprint, the per-function call map, and the displayed tree. -/
structure OutlineState where
  lastSrcHash : Option String
  funcCalls : List (String × List (String × Nat))
  tree : Tree

/-- The single synthetic item shown on a parse failure:
`("Parse error (invalid syntax)", "err", 1, None)`. -/
def errorItem : Item := ⟨"Parse error (invalid syntax)", "err", 1, none⟩

/-- `_update`, parameterised by the host facilities it calls: `hash` is the
content fingerprint (`hashlib.sha1(...).hexdigest()`), `parse` is the host
parser (`ast.parse`), returning `none` on a syntax error. The returned
flag records whether the fingerprint check was passed, i.e. whether a
rebuild (extraction and reconciliation) was performed at all. On a parse
failure the call map field is not touched (the code resets
`self._func_calls` only after a successful parse). -/
def update (hash : String → String) (parse : String → Option (List Stmt))
    (σ : OutlineState) (src : String) : OutlineState × Bool :=
  let h := hash src
  if σ.lastSrcHash == some h then (σ, false)
  else
    match parse src with
    | none =>
        ({ lastSrcHash := some h, funcCalls := σ.funcCalls,
           tree := set_tree_items σ.tree σ.funcCalls [errorItem] }, true)
    | some parsed =>
        let r := visitStmts parsed none
        ({ lastSrcHash := some h, funcCalls := r.2,
           tree := set_tree_items σ.tree r.2 r.1 }, true)

/-- Is `p` a prefix of the second list? -/
def hasPrefixCL : List Char → List Char → Bool
  | [], _ => true
  | _ :: _, [] => false
  | p :: ps, c :: cs => p == c && hasPrefixCL ps cs

/-- Does `pat` occur contiguously in the second list? -/
def hasInfixCL (pat : List Char) : List Char → Bool
  | [] => hasPrefixCL pat []
  | c :: cs => hasPrefixCL pat (c :: cs) || hasInfixCL pat cs

/-- Python's `needle in s` substring test. -/
def strContains (pat s : String) : Bool :=
  hasInfixCL pat.data s.data

/-- Python's `s.endswith(suf)`. -/
def strEndsWith (s suf : String) : Bool :=
  hasPrefixCL suf.data.reverse s.data.reverse

/-- Split at the first occurrence of `sep` (Python's `split(sep, 1)` when
it succeeds in splitting); `none` when `sep` does not occur, in which case
the two-target unpacking in `kind_of` raises and the `except` returns
`None`. -/
def splitFirstAt (sep : Char) : List Char → Option (List Char × List Char)
  | [] => none
  | c :: cs =>
      if c == sep then some ([], cs)
      else (splitFirstAt sep cs).map (fun r => (c :: r.1, r.2))

/-- Python's `str.strip()`: drop whitespace from both ends. -/
def stripChars (l : List Char) : List Char :=
  ((l.dropWhile Char.isWhitespace).reverse.dropWhile Char.isWhitespace).reverse

/-- The piece before the first occurrence of `sep` (`split(sep, 1)[0]`). -/
def beforeFirst (sep : Char) : List Char → List Char
  | [] => []
  | c :: cs => if c == sep then [] else c :: beforeFirst sep cs

/-- `_gather_tree_items.kind_of`: classify a displayed row. The calls
header is never matchable; call leaves are recognised by their identity;
class/function rows are recognised by parsing the kind token out of the
display text (between the em-dash separator and the line parenthesis);
anything else is excluded. -/
def kind_of (iid text : String) : Option String :=
  if strEndsWith iid "::calls" then none
  else if strContains "::call::" iid then some "call"
  else
    match splitFirstAt '—' text.data with
    | none => none
    | some r =>
        let kpart := String.mk (stripChars (beforeFirst '(' (stripChars r.2)))
        if kpart == "class" || kpart == "def" || kpart == "async def" then some kpart
        else none

mutual

/-- `_gather_tree_items.walk` on one subtree: append the row itself when
its inferred kind is among the requested kinds, then walk its children. -/
def gatherNode (kinds : List String) : TreeNode → List (String × String × String)
  | ⟨iid, text, _, _, _, children⟩ =>
      (match kind_of iid text with
       | some k => if kinds.contains k then [(iid, k, text)] else []
       | none => []) ++ gatherForest kinds children

def gatherForest (kinds : List String) : List TreeNode → List (String × String × String)
  | [] => []
  | nd :: rest => gatherNode kinds nd ++ gatherForest kinds rest
end

/-- `_gather_tree_items`: flatten the displayed tree, in document order,
to `(iid, kind, label)` rows of the requested kinds. -/
def gather_tree_items (kinds : List String) (roots : List TreeNode) :
    List (String × String × String) :=
  gatherForest kinds roots

/-- Python's `range(a, b)` as a list of integers. -/
def pyRangeAsc (a b : Int) : List Int :=
  (List.range (b - a).toNat).map (fun i => a + Int.ofNat i)

/-- Python's `range(a, b, -1)` as a list of integers. -/
def pyRangeDesc (a b : Int) : List Int :=
  (List.range (a - b).toNat).map (fun i => a - Int.ofNat i)

/-- The index sequence the DOWN branch of `_do_find_next` scans: first
`range(start_idx + 1, n)`, then, when wrapping, `range(0, start_idx + 1)`. -/
def scanIndicesDown (n : Nat) (start : Int) (wrap : Bool) : List Int :=
  pyRangeAsc (start + 1) (n : Int) ++ (if wrap then pyRangeAsc 0 (start + 1) else [])

/-- The index sequence the UP branch of `_do_find_next` scans: first
`range(start_idx - 1, -1, -1)`, then, when wrapping,
`range(n - 1, start_idx - 1, -1)`. -/
def scanIndicesUp (n : Nat) (start : Int) (wrap : Bool) : List Int :=
  pyRangeDesc (start - 1) (-1) ++ (if wrap then pyRangeDesc ((n : Int) - 1) (start - 1) else [])

/-- The host regular-expression engine (Python's `re` module, outside this
repository), as an oracle: whether a pattern compiles, whether a compiled
pattern (with or without `re.IGNORECASE`) is found in a string, and
`re.escape`. -/
structure RegexOracle where
  compileOk : String → Bool
  search : Bool → String → String → Bool
  escape : String → String

/-- The find-dialog configuration tuple
`(pat, rx, ic, in_cls, in_fun, in_cal, dirv, whole, wrap)`. -/
structure FindConfig where
  pattern : String
  rx : Bool
  ic : Bool
  inCls : Bool
  inFun : Bool
  inCal : Bool
  direction : Int
  whole : Bool
  wrap : Bool

/-- The kind set assembled from the three area check-buttons. -/
def kindsOf (cfg : FindConfig) : List String :=
  (if cfg.inCls then ["class"] else []) ++
    (if cfg.inFun then ["def", "async def"] else []) ++
    (if cfg.inCal then ["call"] else [])

/-- The effective pattern handed to `re.compile` in the regex branch:
wrapped in word-boundary anchors when whole-word is on. -/
def rxPatStr (cfg : FindConfig) : String :=
  if cfg.whole then "\\b(?:" ++ cfg.pattern ++ ")\\b" else cfg.pattern

/-- The matcher built by `_do_find_next`: `none` exactly when the regex
branch fails to compile (the `except re.error: return` path). The
plain-text branch is a substring test, case-folded when ignore-case is on;
the whole-word plain branch compiles the escaped pattern inside word
boundaries, which cannot fail. -/
def buildMatcher (oracle : RegexOracle) (cfg : FindConfig) : Option (String → Bool) :=
  if cfg.rx then
    if oracle.compileOk (rxPatStr cfg) then some (oracle.search cfg.ic (rxPatStr cfg))
    else none
  else if cfg.whole then
    some (oracle.search cfg.ic ("\\b" ++ oracle.escape cfg.pattern ++ "\\b"))
  else
    some (fun s =>
      let needle := if cfg.ic then cfg.pattern.toLower else cfg.pattern
      strContains needle (if cfg.ic then s.toLower else s))

/-- The start-index preference of `_do_find_next`: the selection head when
it is in the flattened index, else the remembered last match when it is,
else `-1`. -/
def startFrom (ids : List String) (sel : List String) (lastIid : Option String) : Int :=
  let fromLast : Int :=
    match lastIid with
    | some l => if ids.contains l then (ids.indexOf l : Int) else -1
    | none => -1
  match sel with
  | s :: _ => if ids.contains s then (ids.indexOf s : Int) else fromLast
  | [] => fromLast

mutual

/-- `_expand_to`: open every strict ancestor of the target identity (the
target row itself and unrelated rows keep their state). -/
def openAncestorsNode (target : String) : TreeNode → TreeNode
  | ⟨iid, text, values, op, sym, children⟩ =>
      if iid == target then ⟨iid, text, values, op, sym, children⟩
      else if (allIids children).contains target then
        ⟨iid, text, values, true, sym, openAncestorsForest target children⟩
      else ⟨iid, text, values, op, sym, children⟩

def openAncestorsForest (target : String) : List TreeNode → List TreeNode
  | [] => []
  | nd :: rest => openAncestorsNode target nd :: openAncestorsForest target rest
end

mutual

/-- Find the displayed item with the given identity. -/
def findNodeIn (target : String) : TreeNode → Option TreeNode
  | ⟨iid, text, values, op, sym, children⟩ =>
      if iid == target then some ⟨iid, text, values, op, sym, children⟩
      else findNodeForest target children

def findNodeForest (target : String) : List TreeNode → Option TreeNode
  | [] => none
  | nd :: rest =>
      match findNodeIn target nd with
      | some r => some r
      | none => findNodeForest target rest
end

/-- Everything `_do_find_next` changes or triggers: the tree (ancestor
expansion), the selection (part of the tree), the remembered last-match
identity, the navigation side effect (the line jumped to, `none` when no
navigation happened), and whether the audible alert fired. -/
structure FindOutcome where
  tree : Tree
  lastIid : Option String
  navLine : Option Nat
  belled : Bool

/-- The outcome of the early-return paths: nothing changes, no navigation,
no alert. -/
def noopOutcome (t : Tree) (lastIid : Option String) : FindOutcome :=
  ⟨t, lastIid, none, false⟩

/-- `try_match`'s test at one scan index: does the row's displayed label
match? -/
def itemMatches (mtch : String → Bool) (items : List (String × String × String))
    (i : Int) : Bool :=
  match items.get? i.toNat with
  | some it => mtch it.2.2
  | none => false

/-- `_do_find_next`: flatten, locate the start, build the matcher, scan in
the configured direction (with wrap), and on the first match expand its
ancestors, select it, remember it and navigate to its stored line; alert
when the full scan finds nothing. -/
def do_find_next (oracle : RegexOracle) (cfg : FindConfig) (t : Tree)
    (lastIid : Option String) : FindOutcome :=
  if cfg.pattern == "" then noopOutcome t lastIid
  else
    let items := gather_tree_items (kindsOf cfg) t.roots
    let n := items.length
    if n == 0 then noopOutcome t lastIid
    else
      let ids := items.map (·.1)
      let startIdx := startFrom ids t.selection lastIid
      match buildMatcher oracle cfg with
      | none => noopOutcome t lastIid
      | some mtch =>
          let scan :=
            if cfg.direction == 1 then scanIndicesDown n startIdx cfg.wrap
            else scanIndicesUp n (if startIdx == -1 then (n : Int) else startIdx) cfg.wrap
          match scan.find? (fun i => itemMatches mtch items i) with
          | some i =>
              match items.get? i.toNat with
              | some it =>
                  let roots := openAncestorsForest it.1 t.roots
                  { tree := { roots := roots, selection := [it.1] },
                    lastIid := some it.1,
                    navLine := (findNodeForest it.1 roots).bind (fun nd => nd.values.head?),
                    belled := false }
              | none => noopOutcome t lastIid
          | none => { tree := t, lastIid := lastIid, navLine := none, belled := true }

/-- Does the string contain a `.` character? Python identifiers never do;
the dot is `mkQual`'s separator. -/
def hasDot (s : String) : Bool :=
  decide ('.' ∈ s.data)

/-- Dot-join of a name path, exactly as the nested `mkQual` applications
produce it. -/
def joinPath : List String → String
  | [] => ""
  | h :: t => t.foldl (fun a x => a ++ "." ++ x) h

/-- The `parent_qual` value corresponding to a name path: `None` at the
module root, else the joined path. -/
def pathKey : List String → Option String
  | [] => none
  | h :: t => some (joinPath (h :: t))

mutual
/-- The name paths of all records `_update.visit` emits from one
statement, given the path of the enclosing definitions. -/
def visitP : Stmt → List String → List (List String)
  | .classDef n _ b, path => (path ++ [n]) :: visitPL b (path ++ [n])
  | .funcDef n _ b, path => (path ++ [n]) :: visitPL b (path ++ [n])
  | .asyncFuncDef n _ b, path => (path ++ [n]) :: visitPL b (path ++ [n])
  | .exprStmt _, _ => []
  | .other _ b, path => visitPL b path

def visitPL : List Stmt → List String → List (List String)
  | [], _ => []
  | s :: rest, path => visitP s path ++ visitPL rest path
end

mutual
/-- The definition names a statement contributes to its own nesting level
(the traversal of `_update.visit` descends through non-definition
statements at the same `parent_qual`, so those contribute their bodies'
definitions). -/
def levelNames : Stmt → List String
  | .classDef n _ _ => [n]
  | .funcDef n _ _ => [n]
  | .asyncFuncDef n _ _ => [n]
  | .exprStmt _ => []
  | .other _ b => levelNamesL b

def levelNamesL : List Stmt → List String
  | [] => []
  | s :: rest => levelNames s ++ levelNamesL rest
end

mutual
/-- Inner well-formedness of one statement: every definition in it has a
dot-free name and a body whose own nesting level carries
pairwise-distinct definition names. (The level check for the enclosing
list itself is `wfBody`.) -/
def wfStmt : Stmt → Bool
  | .classDef n _ cb => !hasDot n && decide (levelNamesL cb).Nodup && wfInner cb
  | .funcDef n _ cb => !hasDot n && decide (levelNamesL cb).Nodup && wfInner cb
  | .asyncFuncDef n _ cb => !hasDot n && decide (levelNamesL cb).Nodup && wfInner cb
  | .exprStmt _ => true
  | .other _ ob => wfInner ob

def wfInner : List Stmt → Bool
  | [] => true
  | s :: rest => wfStmt s && wfInner rest
end

/-- Well-formed module body: definition names are dot-free everywhere and
every sibling group (every nesting level, the top one included) carries
pairwise-distinct definition names. -/
def wfBody (b : List Stmt) : Bool :=
  decide (levelNamesL b).Nodup && wfInner b

/-- Build the attribute chain `base.a₁.a₂...` (innermost receiver `base`,
attributes applied outward). -/
def mkChain (base : Expr) (attrs : List String) : Expr :=
  attrs.foldl (fun e a => Expr.attrAccess e a) base

/-- Is the expression a bare name? -/
def isBareName : Expr → Bool
  | .name _ => true
  | _ => false

/-- Is the expression an attribute access? -/
def isAttrAccess : Expr → Bool
  | .attrAccess _ _ => true
  | _ => false

/-- The index positions of a flattened list of n matches, in document
order. -/
def indexList (n : Nat) : List Int :=
  (List.range n).map Int.ofNat

/-- The scan the specification describes for forward search: the indices
strictly after the start, in order, then — when wrapping — the indices
from the beginning through the start inclusive. -/
def specScanDown (n : Nat) (start : Int) (wrap : Bool) : List Int :=
  (indexList n).filter (fun i => start < i) ++
    (if wrap then (indexList n).filter (fun i => i ≤ start) else [])

/-- The scan the specification describes for backward search: the indices
strictly before the start, from the start downward, then — when
wrapping — the indices from the end down through the start inclusive. -/
def specScanUp (n : Nat) (start : Int) (wrap : Bool) : List Int :=
  ((indexList n).filter (fun i => i < start)).reverse ++
    (if wrap then ((indexList n).filter (fun i => start ≤ i)).reverse else [])

/-- The line numbers of the class/function rows of one sibling list, in
display order. -/
def symLines (l : List TreeNode) : List Nat :=
  (l.filter (·.sym)).map (fun nd => nd.values.headD 0)

/-- Invariant of a freshly built forest: every node is closed and every
node's class/function children are sorted by line. -/
def nodesOk (bl : List TreeNode) : Prop :=
  ∀ nd ∈ forestNodes bl, nd.isOpen = false ∧ List.Sorted (· ≤ ·) (symLines nd.children)

/-- The sibling list itself is sorted by line on its class/function rows. -/
def levelOk (bl : List TreeNode) : Prop :=
  List.Sorted (· ≤ ·) (symLines bl)

instance : IsTotal (String × String × Nat) (fun a b => a.2.2 ≤ b.2.2) :=
  ⟨fun a b => Nat.le_total a.2.2 b.2.2⟩

instance : IsTrans (String × String × Nat) (fun a b => a.2.2 ≤ b.2.2) :=
  ⟨fun _ _ _ h₁ h₂ => Nat.le_trans h₁ h₂⟩

/-! ## Theorems

Concrete sanity evaluations of the embedding, followed by the claim
theorems and their supporting lemmas. -/
example : (visitStmts [Stmt.funcDef "outer" 1
    [Stmt.funcDef "g" 2 [Stmt.exprStmt (Expr.call (Expr.name "f") [] 3)]]] none).2
    = [("outer", []), ("outer.g", [("f", 3)])] := by decide

example : format_callee (Expr.attrAccess (Expr.attrAccess (Expr.name "a") "b") "c") = "a.b.c" := by
  decide

example :
    (set_tree_items ⟨[], []⟩ [] [errorItem]).roots.map (fun nd => (nd.iid, nd.text)) =
      [("Parse error (invalid syntax)", "Parse error (invalid syntax)  —  err  (L1)")] := by
  decide

/-! Name paths: each extraction record is mirrored by the list of
definition names on its path from the module root; the string qualified
name is the dot-join of that path. -/
example :
    wfBody [Stmt.classDef "A" 1 [Stmt.funcDef "f" 2 []], Stmt.funcDef "f" 3 []] = true := by
  decide

example :
    ((visitStmts [Stmt.classDef "A" 1 [Stmt.funcDef "f" 2 []], Stmt.funcDef "f" 3 []]
        none).1).map (·.qual) = ["A", "A.f", "f"] := by
  decide

example :
    ((visitStmts [Stmt.funcDef "f" 1 [], Stmt.funcDef "f" 2 []] none).1).map (·.qual)
      = ["f", "f"] := by
  decide

/-! ### Claims C5 (skip idempotence), C4 (parse failure), C9 and C10
(search no-op paths) -/

/-- C5: calling `_update` twice with identical buffer text performs the
extraction only once: whatever the first call did (skip, parse failure or
successful rebuild), it leaves the stored fingerprint equal to the text's
fingerprint, so the second call compares fingerprints, performs no
extraction (the returned flag is `false`) and returns the state
unchanged — model, call map and displayed tree included. -/
theorem update_skip_idempotent (hash : String → String)
    (parse : String → Option (List Stmt)) (σ : OutlineState) (src : String) :
    update hash parse (update hash parse σ src).1 src
      = ((update hash parse σ src).1, false) := by
  unfold update
  cases hb : σ.lastSrcHash == some (hash src) with
  | true => simp [hb]
  | false =>
      cases hp : parse src with
      | none => simp [hb, hp]
      | some parsed => simp [hb, hp]

/-- C4 (amended): on a parse failure of changed text, `_update` emits
exactly the single synthetic record `("Parse error (invalid syntax)",
"err", 1, None)` to the tree rebuild and raises nothing (the update is a
total function of the state) — but the per-function call map is left
unchanged rather than emptied: `self._func_calls` is only reset after a
successful parse, so entries from a previous successful extraction
survive a parse failure. -/
theorem update_parse_error (hash : String → String)
    (parse : String → Option (List Stmt)) (σ : OutlineState) (src : String)
    (hne : σ.lastSrcHash ≠ some (hash src)) (hp : parse src = none) :
    update hash parse σ src
      = ({ lastSrcHash := some (hash src), funcCalls := σ.funcCalls,
           tree := set_tree_items σ.tree σ.funcCalls [errorItem] }, true) := by
  unfold update
  have hb : (σ.lastSrcHash == some (hash src)) = false := by
    simpa using hne
  simp [hb, hp]

/-- C4, witness: a concrete changed buffer that fails to parse takes the
parse-error branch. -/
theorem update_parse_error_witness :
    ((none : Option String) ≠ some "def foo(:" ∧
        (fun _ : String => (none : Option (List Stmt))) "def foo(:" = none) ∧
      update (fun s => s) (fun _ => none)
          ⟨none, [("f", [("g", 2)])], ⟨[], []⟩⟩ "def foo(:"
        = ({ lastSrcHash := some "def foo(:", funcCalls := [("f", [("g", 2)])],
             tree := set_tree_items ⟨[], []⟩ [("f", [("g", 2)])] [errorItem] }, true) :=
  ⟨⟨by decide, rfl⟩,
    update_parse_error (fun s => s) (fun _ => none)
      ⟨none, [("f", [("g", 2)])], ⟨[], []⟩⟩ "def foo(:" (by decide) rfl⟩

/-- C4, counterexample to the claim as stated: after a successful
extraction of `def f(): g()`, an update whose text fails to parse leaves
the stale call map entry for `f` in place, so the per-function call map
after the failing update is not empty. -/
theorem update_parse_error_stale_call_map :
    (update (fun s => s) (fun _ => none)
        ⟨none, [("f", [("g", 2)])], ⟨[], []⟩⟩ "def foo(:").1.funcCalls
        = [("f", [("g", 2)])] ∧
      [("f", [("g", 2)])] ≠ ([] : List (String × List (String × Nat))) := by
  constructor
  · rfl
  · decide

/-- C9: when the regular-expression flag is set and the (word-wrapped,
when whole-word is on) pattern fails to compile, `_do_find_next` returns
before any matching, navigation, alert or state change: the tree, the
selection and the remembered last match are untouched. -/
theorem find_invalid_regex_noop (oracle : RegexOracle) (cfg : FindConfig)
    (t : Tree) (lastIid : Option String) (hrx : cfg.rx = true)
    (hc : oracle.compileOk (rxPatStr cfg) = false) :
    do_find_next oracle cfg t lastIid = noopOutcome t lastIid := by
  unfold do_find_next buildMatcher
  simp [hrx, hc]

/-- C9, witness: a concrete never-compiling oracle and regex
configuration. -/
theorem find_invalid_regex_noop_witness :
    ((⟨"(", true, true, true, true, true, 1, false, true⟩ : FindConfig).rx = true ∧
        (⟨fun _ => false, fun _ _ _ => false, fun s => s⟩ : RegexOracle).compileOk
          (rxPatStr ⟨"(", true, true, true, true, true, 1, false, true⟩) = false) ∧
      do_find_next ⟨fun _ => false, fun _ _ _ => false, fun s => s⟩
          ⟨"(", true, true, true, true, true, 1, false, true⟩ ⟨[], ["x"]⟩ (some "y")
        = noopOutcome ⟨[], ["x"]⟩ (some "y") :=
  ⟨⟨rfl, rfl⟩,
    find_invalid_regex_noop ⟨fun _ => false, fun _ _ _ => false, fun s => s⟩
      ⟨"(", true, true, true, true, true, 1, false, true⟩ ⟨[], ["x"]⟩ (some "y") rfl rfl⟩

/-- C10: with an empty pattern, or when the flattened index retains no row
of an included category (as against the parse-error tree), `_do_find_next`
returns immediately as a complete no-op: no alert, no navigation, and the
selection and remembered last match are unchanged. -/
theorem find_empty_noop (oracle : RegexOracle) (cfg : FindConfig) (t : Tree)
    (lastIid : Option String)
    (h : cfg.pattern = "" ∨ gather_tree_items (kindsOf cfg) t.roots = []) :
    do_find_next oracle cfg t lastIid = noopOutcome t lastIid := by
  rcases h with h | h
  · unfold do_find_next
    simp [h]
  · unfold do_find_next
    cases hp : cfg.pattern == "" with
    | true => simp
    | false => simp [hp, gather_tree_items] at h ⊢; simp [h]

/-- C10, witness: searching the displayed parse-error tree for anything;
its only row infers to kind `err`, which is never matchable, so the
flattened index is empty and the search is a no-op. -/
theorem find_empty_noop_witness :
    gather_tree_items (kindsOf ⟨"Parse", false, true, true, true, true, 1, false, true⟩)
        (set_tree_items ⟨[], []⟩ [] [errorItem]).roots = [] ∧
      do_find_next ⟨fun _ => true, fun _ _ _ => true, fun s => s⟩
          ⟨"Parse", false, true, true, true, true, 1, false, true⟩
          (set_tree_items ⟨[], []⟩ [] [errorItem]) none
        = noopOutcome (set_tree_items ⟨[], []⟩ [] [errorItem]) none :=
  ⟨by decide,
    find_empty_noop ⟨fun _ => true, fun _ _ _ => true, fun s => s⟩
      ⟨"Parse", false, true, true, true, true, 1, false, true⟩
      (set_tree_items ⟨[], []⟩ [] [errorItem]) none (Or.inr (by decide))⟩

/-! ### Claim C6: call scoping -/
theorem callsInStmts_append (l₁ l₂ : List Stmt) :
    callsInStmts (l₁ ++ l₂) = callsInStmts l₁ ++ callsInStmts l₂ := by
  induction l₁ with
  | nil => simp [callsInStmts]
  | cons s rest ih => simp [callsInStmts, ih]

/-- The raw call walk is invariant under erasing every nested definition
body: the `CV` visitor's `pass` overrides stop at class/function
definitions wherever they occur, while `generic_visit` descends through
compound statements. -/
theorem callsInStmts_scrub (l : List Stmt) :
    callsInStmts (scrubStmts l) = callsInStmts l := by
  refine scrubStmts.induct
    (fun s => callsInStmt (scrubStmt s) = callsInStmt s)
    (fun l => callsInStmts (scrubStmts l) = callsInStmts l)
    ?_ ?_ ?_ ?_ ?_ ?_ ?_ l
  · intro n ln b
    rfl
  · intro n ln b
    rfl
  · intro n ln b
    rfl
  · intro e
    rfl
  · intro es b ih
    simp only [scrubStmt, callsInStmt, ih]
  · rfl
  · intro s rest ih1 ih2
    simp only [scrubStmts, callsInStmts, ih1, ih2]

theorem scrubStmts_append (l₁ l₂ : List Stmt) :
    scrubStmts (l₁ ++ l₂) = scrubStmts l₁ ++ scrubStmts l₂ := by
  induction l₁ with
  | nil => rfl
  | cons s rest ih => simp [scrubStmts, ih]

/-- C6: call collection walks only the enclosing function's direct
statement body (descending through compound statements) and never
descends into nested function or class definitions, wherever they sit:
the collected call list is invariant under any change to the bodies of
nested definitions — two bodies with equal `scrubStmts` images differ
only inside nested definition bodies and get the same call list. In
particular, replacing the body of a definition placed directly in the
statement list, or of one nested inside a compound statement, never
changes the enclosing list, so a call inside a nested definition can only
appear in that definition's own call list. Concretely, for
`def outer: def g: f()` the call map gives `outer` no calls and `outer.g`
the call `f`; and when `def g: f()` sits inside a compound statement of
`outer` that is followed by a call `h()`, `outer` records only `h` while
`outer.g` records `f`. -/
theorem collect_calls_scoping :
    (∀ (b b' : List Stmt), scrubStmts b = scrubStmts b' →
        collect_calls b = collect_calls b') ∧
    (∀ (s₁ s₂ : List Stmt) (n : String) (ln : Nat) (b b' : List Stmt),
        collect_calls (s₁ ++ Stmt.funcDef n ln b :: s₂)
          = collect_calls (s₁ ++ Stmt.funcDef n ln b' :: s₂)) ∧
    (∀ (s₁ s₂ : List Stmt) (n : String) (ln : Nat) (b b' : List Stmt),
        collect_calls (s₁ ++ Stmt.asyncFuncDef n ln b :: s₂)
          = collect_calls (s₁ ++ Stmt.asyncFuncDef n ln b' :: s₂)) ∧
    (∀ (s₁ s₂ : List Stmt) (n : String) (ln : Nat) (b b' : List Stmt),
        collect_calls (s₁ ++ Stmt.classDef n ln b :: s₂)
          = collect_calls (s₁ ++ Stmt.classDef n ln b' :: s₂)) ∧
    (∀ (es : List Expr) (s₁ s₂ t₁ t₂ : List Stmt) (n : String) (ln : Nat)
        (b b' : List Stmt),
        collect_calls (s₁ ++ Stmt.other es (t₁ ++ Stmt.funcDef n ln b :: t₂) :: s₂)
          = collect_calls (s₁ ++ Stmt.other es (t₁ ++ Stmt.funcDef n ln b' :: t₂) :: s₂)) ∧
    (visitStmts [Stmt.funcDef "outer" 1
        [Stmt.funcDef "g" 2 [Stmt.exprStmt (Expr.call (Expr.name "f") [] 3)]]] none).2
      = [("outer", []), ("outer.g", [("f", 3)])] ∧
    (visitStmts [Stmt.funcDef "outer" 1
        [Stmt.other [] [Stmt.funcDef "g" 2 [Stmt.exprStmt (Expr.call (Expr.name "f") [] 3)]],
         Stmt.exprStmt (Expr.call (Expr.name "h") [] 4)]] none).2
      = [("outer", [("h", 4)]), ("outer.g", [("f", 3)])] := by
  have hscrub : ∀ (b b' : List Stmt), scrubStmts b = scrubStmts b' →
      collect_calls b = collect_calls b' := by
    intro b b' h
    unfold collect_calls
    rw [← callsInStmts_scrub b, ← callsInStmts_scrub b', h]
  refine ⟨hscrub, ?_, ?_, ?_, ?_, by decide, by decide⟩
  · intro s₁ s₂ n ln b b'
    apply hscrub
    rw [scrubStmts_append, scrubStmts_append]
    rfl
  · intro s₁ s₂ n ln b b'
    apply hscrub
    rw [scrubStmts_append, scrubStmts_append]
    rfl
  · intro s₁ s₂ n ln b b'
    apply hscrub
    rw [scrubStmts_append, scrubStmts_append]
    rfl
  · intro es s₁ s₂ t₁ t₂ n ln b b'
    apply hscrub
    simp only [scrubStmts_append, scrubStmts, scrubStmt]

/-- C6, witness: erasing the body of a function nested inside a compound
statement leaves the scrubbing, hence the enclosing call list, unchanged,
evaluated concretely. -/
theorem collect_calls_scoping_witness :
    scrubStmts [Stmt.other []
        [Stmt.funcDef "g" 2 [Stmt.exprStmt (Expr.call (Expr.name "f") [] 3)]]]
        = scrubStmts [Stmt.other [] [Stmt.funcDef "g" 2 []]] ∧
      collect_calls [Stmt.other []
          [Stmt.funcDef "g" 2 [Stmt.exprStmt (Expr.call (Expr.name "f") [] 3)]]]
        = collect_calls [Stmt.other [] [Stmt.funcDef "g" 2 []]] :=
  ⟨rfl, collect_calls_scoping.1 _ _ rfl⟩

/-! ### Claim C7: callee label rendering -/
theorem chainParts_mkChain (attrs : List String) (base : Expr) :
    chainParts (mkChain base attrs) = chainParts base ++ attrs := by
  induction attrs generalizing base with
  | nil => simp [mkChain]
  | cons a as ih =>
      have : mkChain base (a :: as) = mkChain (Expr.attrAccess base a) as := rfl
      rw [this, ih]
      simp [chainParts]

theorem format_callee_mkChain (base : Expr) (attrs : List String) (h : attrs ≠ []) :
    format_callee (mkChain base attrs)
      = String.intercalate "." (chainParts base ++ attrs) := by
  rcases List.eq_nil_or_concat attrs with rfl | ⟨l, a, rfl⟩
  · exact absurd rfl h
  · simp only [List.concat_eq_append]
    have hc : mkChain base (l ++ [a]) = Expr.attrAccess (mkChain base l) a := by
      simp [mkChain]
    rw [hc]
    show String.intercalate "." (chainParts (Expr.attrAccess (mkChain base l) a)) = _
    have : chainParts (Expr.attrAccess (mkChain base l) a)
        = chainParts base ++ (l ++ [a]) := by
      have := chainParts_mkChain (l ++ [a]) base
      rw [← this, hc]
    rw [this]

/-- C7: the rendered callee label is the identifier itself for a bare-name
callee; for a chained attribute access it is the full dotted chain,
rebuilt left-to-right from the innermost receiver outward (the receiver
rendering as its identifier when it is a bare name and as the fixed
`<expr>` token otherwise); and every other callee expression form — a
call's result, a lambda, a subscript, or any other expression — renders as
the fixed placeholder `<call>`. -/
theorem format_callee_cases :
    (∀ id, format_callee (Expr.name id) = id) ∧
    (∀ id attrs, attrs ≠ [] →
        format_callee (mkChain (Expr.name id) attrs)
          = String.intercalate "." (id :: attrs)) ∧
    (∀ base attrs, attrs ≠ [] → isBareName base = false → isAttrAccess base = false →
        format_callee (mkChain base attrs)
          = String.intercalate "." ("<expr>" :: attrs)) ∧
    (∀ f args ln, format_callee (Expr.call f args ln) = "<call>") ∧
    (∀ b, format_callee (Expr.lambda b) = "<call>") ∧
    (∀ v ix, format_callee (Expr.subscript v ix) = "<call>") ∧
    format_callee Expr.const = "<call>" := by
  refine ⟨fun id => rfl, fun id attrs h => ?_, fun base attrs h h₁ h₂ => ?_,
    fun f args ln => rfl, fun b => rfl, fun v ix => rfl, rfl⟩
  · rw [format_callee_mkChain _ _ h]
    rfl
  · rw [format_callee_mkChain _ _ h]
    have : chainParts base = ["<expr>"] := by
      cases base <;> simp_all [isBareName, isAttrAccess, chainParts]
    rw [this]
    rfl

/-- C7, witness: the chain `a.b.c` renders as `"a.b.c"`, evaluated
concretely. -/
theorem format_callee_cases_witness :
    (["b", "c"] ≠ ([] : List String)) ∧
      format_callee (mkChain (Expr.name "a") ["b", "c"])
        = String.intercalate "." ["a", "b", "c"] :=
  ⟨by decide, format_callee_cases.2.1 "a" ["b", "c"] (by decide)⟩

/-! ### Claim C2: search directionality and wrap -/
theorem pyRangeAsc_empty (a b : Int) (h : b ≤ a) : pyRangeAsc a b = [] := by
  have : (b - a).toNat = 0 := by omega
  simp [pyRangeAsc, this]

theorem pyRangeAsc_append_last (a b : Int) (h : a ≤ b) :
    pyRangeAsc a (b + 1) = pyRangeAsc a b ++ [b] := by
  have hk : (b + 1 - a).toNat = (b - a).toNat + 1 := by omega
  have hb : a + ((b - a).toNat : Int) = b := by omega
  unfold pyRangeAsc
  rw [hk, List.range_succ, List.map_append]
  simp only [List.map_cons, List.map_nil, Int.ofNat_eq_natCast]
  rw [hb]

theorem indexList_succ (n : Nat) : indexList (n + 1) = indexList n ++ [(n : Int)] := by
  simp [indexList, List.range_succ]

theorem mem_indexList (n : Nat) (i : Int) : i ∈ indexList n ↔ 0 ≤ i ∧ i < n := by
  unfold indexList
  simp only [List.mem_map, List.mem_range, Int.ofNat_eq_natCast]
  constructor
  · rintro ⟨k, hk, rfl⟩
    omega
  · rintro ⟨h0, hn⟩
    exact ⟨i.toNat, by omega, by omega⟩

theorem pyRangeAsc_filter_gt (n : Nat) (a : Int) (ha : -1 ≤ a) :
    pyRangeAsc (a + 1) n = (indexList n).filter (fun i => decide (a < i)) := by
  induction n with
  | zero =>
      rw [pyRangeAsc_empty _ _ (by push_cast; omega)]
      simp [indexList]
  | succ n ih =>
      rw [indexList_succ, List.filter_append]
      by_cases hc : a < (n : Int)
      · rw [show ((n + 1 : Nat) : Int) = (n : Int) + 1 by push_cast; ring,
          pyRangeAsc_append_last _ _ (by omega), ih]
        simp [hc]
      · have h1 : pyRangeAsc (a + 1) ((n + 1 : Nat) : Int) = [] :=
          pyRangeAsc_empty _ _ (by push_cast; omega)
        have h2 : pyRangeAsc (a + 1) ((n : Nat) : Int) = [] :=
          pyRangeAsc_empty _ _ (by omega)
        rw [h1, ← ih, h2]
        simp [hc]

theorem pyRangeAsc_filter_le (n : Nat) (s : Int) (h : s < n) :
    pyRangeAsc 0 (s + 1) = (indexList n).filter (fun i => decide (i ≤ s)) := by
  induction n with
  | zero =>
      have h0 : s + 1 ≤ 0 := by push_cast at h; omega
      rw [pyRangeAsc_empty _ _ h0]
      simp [indexList]
  | succ n ih =>
      rw [indexList_succ, List.filter_append]
      by_cases hc : (n : Int) ≤ s
      · have hs : s = (n : Int) := by push_cast at h; omega
        subst hs
        have hall : (indexList n).filter (fun i => decide (i ≤ (n : Int))) = indexList n := by
          apply List.filter_eq_self.mpr
          intro i hi
          have hb := (mem_indexList n i).mp hi
          simp only [decide_eq_true_eq]
          omega
        have h0 : pyRangeAsc 0 ((n : Nat) : Int) = indexList n := by
          unfold pyRangeAsc indexList
          have : (((n : Nat) : Int) - 0).toNat = n := by omega
          rw [this]
          apply List.map_congr_left
          intro k _
          omega
        rw [pyRangeAsc_append_last _ _ (by omega), h0, hall]
        simp
      · have hsn : s < (n : Int) := by omega
        rw [ih hsn]
        simp [hc]

theorem pyRangeDesc_eq_reverse (a b : Int) :
    pyRangeDesc a b = (pyRangeAsc (b + 1) (a + 1)).reverse := by
  have hk : (a + 1 - (b + 1)).toNat = (a - b).toNat := by omega
  apply List.ext_getElem
  · simp only [pyRangeDesc, pyRangeAsc, List.length_reverse, List.length_map,
      List.length_range, hk]
  · intro i h1 h2
    simp only [pyRangeDesc, List.length_map, List.length_range] at h1
    simp only [pyRangeDesc, pyRangeAsc, List.getElem_reverse, List.getElem_map,
      List.getElem_range, List.length_map, List.length_range, hk, Int.ofNat_eq_natCast]
    omega

theorem scan_down_eq (n : Nat) (start : Int) (wrap : Bool)
    (h1 : -1 ≤ start) (h2 : start < (n : Int)) :
    scanIndicesDown n start wrap = specScanDown n start wrap := by
  unfold scanIndicesDown specScanDown
  rw [pyRangeAsc_filter_gt n start h1]
  congr 1
  cases wrap with
  | false => rfl
  | true => simpa using pyRangeAsc_filter_le n start h2

theorem scan_up_eq (n : Nat) (start : Int) (wrap : Bool)
    (h1 : 0 ≤ start) (h2 : start ≤ (n : Int)) :
    scanIndicesUp n start wrap = specScanUp n start wrap := by
  unfold scanIndicesUp specScanUp
  have e1 : pyRangeDesc (start - 1) (-1) =
      ((indexList n).filter (fun i => decide (i < start))).reverse := by
    rw [pyRangeDesc_eq_reverse]
    have : (-1 : Int) + 1 = 0 := by ring
    rw [this, show start - 1 + 1 = start by ring]
    congr 1
    have := pyRangeAsc_filter_le n (start - 1) (by omega)
    rw [show start - 1 + 1 = start by ring] at this
    rw [this]
    apply List.filter_congr
    intro x hx
    simp only [decide_eq_decide]
    omega
  have e2 : pyRangeDesc ((n : Int) - 1) (start - 1) =
      ((indexList n).filter (fun i => decide (start ≤ i))).reverse := by
    rw [pyRangeDesc_eq_reverse]
    rw [show start - 1 + 1 = start by ring, show (n : Int) - 1 + 1 = (n : Int) by ring]
    congr 1
    have := pyRangeAsc_filter_gt n (start - 1) (by omega)
    rw [show start - 1 + 1 = start by ring] at this
    rw [this]
    apply List.filter_congr
    intro x hx
    simp only [decide_eq_decide]
    omega
  rw [e1, e2]

/-- C2: forward search examines exactly the indices strictly after the
start up to the end and then, when wrapping, the indices from the
beginning through the start inclusive; backward search examines exactly
the indices strictly before the start downward and then, when wrapping,
the indices from the end down through the start inclusive (for every
start position the dialog can produce: a list position, or the
before-first/after-last defaults). On the concrete three-match tree
`[a, b, c]` positioned at `b`, repeated forward wrapped search finds `c`,
then `a`, then `b`, and repeated backward wrapped search finds `a`, then
`c`, then `b`. -/
theorem find_scan_order :
    (∀ (n : Nat) (start : Int) (wrap : Bool), -1 ≤ start → start < (n : Int) →
        scanIndicesDown n start wrap = specScanDown n start wrap) ∧
    (∀ (n : Nat) (start : Int) (wrap : Bool), 0 ≤ start → start ≤ (n : Int) →
        scanIndicesUp n start wrap = specScanUp n start wrap) ∧
    (let o : RegexOracle := ⟨fun _ => true, fun _ _ _ => false, fun s => s⟩
     let t0 : Tree := ⟨[⟨"a", "a  —  class  (L1)", [1], false, true, []⟩,
        ⟨"b", "b  —  class  (L2)", [2], false, true, []⟩,
        ⟨"c", "c  —  class  (L3)", [3], false, true, []⟩], ["b"]⟩
     let down : FindConfig := ⟨"class", false, false, true, false, false, 1, false, true⟩
     let up : FindConfig := ⟨"class", false, false, true, false, false, -1, false, true⟩
     let d1 := do_find_next o down t0 none
     let d2 := do_find_next o down d1.tree d1.lastIid
     let d3 := do_find_next o down d2.tree d2.lastIid
     let u1 := do_find_next o up t0 none
     let u2 := do_find_next o up u1.tree u1.lastIid
     let u3 := do_find_next o up u2.tree u2.lastIid
     (d1.lastIid, d2.lastIid, d3.lastIid) = (some "c", some "a", some "b") ∧
       (u1.lastIid, u2.lastIid, u3.lastIid) = (some "a", some "c", some "b")) :=
  ⟨scan_down_eq, scan_up_eq, by decide⟩

/-- C2, witness: the scan orders evaluated at a concrete length and start
position. -/
theorem find_scan_order_witness :
    ((-1 : Int) ≤ 1 ∧ (1 : Int) < (3 : Nat) ∧ (0 : Int) ≤ 1 ∧ (1 : Int) ≤ (3 : Nat)) ∧
      scanIndicesDown 3 1 true = specScanDown 3 1 true ∧
      scanIndicesUp 3 1 true = specScanUp 3 1 true :=
  ⟨by norm_num,
    find_scan_order.1 3 1 true (by norm_num) (by norm_num),
    find_scan_order.2.1 3 1 true (by norm_num) (by norm_num)⟩

/-! ### Claims C1 (state preservation) and C8 (children ordering) -/
theorem subtreeNodes_def (nd : TreeNode) :
    subtreeNodes nd = nd :: forestNodes nd.children := by
  cases nd
  rfl

theorem forestNodes_append (l₁ l₂ : List TreeNode) :
    forestNodes (l₁ ++ l₂) = forestNodes l₁ ++ forestNodes l₂ := by
  induction l₁ with
  | nil => rfl
  | cons nd rest ih => simp [forestNodes, ih]

theorem mem_forestNodes_self {nd : TreeNode} {l : List TreeNode} (h : nd ∈ l) :
    nd ∈ forestNodes l := by
  induction l with
  | nil => cases h
  | cons x rest ih =>
      rcases List.mem_cons.mp h with rfl | h
      · rw [forestNodes, subtreeNodes_def]
        exact List.mem_append_left _ (List.mem_cons_self _ _)
      · rw [forestNodes]
        exact List.mem_append_right _ (ih h)

theorem symLines_append (l₁ l₂ : List TreeNode) :
    symLines (l₁ ++ l₂) = symLines l₁ ++ symLines l₂ := by
  simp [symLines, List.filter_append]

theorem symLines_eq_nil {l : List TreeNode} (h : ∀ nd ∈ l, nd.sym = false) :
    symLines l = [] := by
  unfold symLines
  rw [List.filter_eq_nil_iff.mpr (by intro a ha; simp [h a ha])]
  rfl

theorem buildCallLeaves_ok (q : String) :
    ∀ (cs : List (String × Nat)) (idx : Nat) (used : List String) (ctr : Nat),
      ∀ nd ∈ forestNodes (buildCallLeaves q cs idx used ctr).1,
        nd.isOpen = false ∧ nd.sym = false ∧ nd.children = [] := by
  intro cs
  induction cs with
  | nil =>
      intro idx used ctr nd h
      simp [buildCallLeaves, forestNodes] at h
  | cons c rest ih =>
      intro idx used ctr nd h
      obtain ⟨label, cln⟩ := c
      simp only [buildCallLeaves, forestNodes, subtreeNodes_def] at h
      rcases List.mem_append.mp h with h | h
      · rcases List.mem_cons.mp h with rfl | h
        · exact ⟨rfl, rfl, rfl⟩
        · simp [forestNodes] at h
      · exact ih _ _ _ nd h

theorem buildCallsSubtree_ok (fc : List (String × List (String × Nat))) (q : String)
    (used : List String) (ctr : Nat) :
    ∀ nd ∈ forestNodes (buildCallsSubtree fc q used ctr).1,
      nd.isOpen = false ∧ nd.sym = false ∧ nd.children.filter (·.sym) = [] := by
  intro nd h
  unfold buildCallsSubtree at h
  by_cases hc : (lookupCalls fc q).isEmpty
  · simp [hc, forestNodes] at h
  · simp only [hc, if_false, forestNodes, subtreeNodes_def, List.append_nil] at h
    rcases List.mem_cons.mp h with rfl | h
    · refine ⟨rfl, rfl, ?_⟩
      apply List.filter_eq_nil_iff.mpr
      intro a ha
      have := (buildCallLeaves_ok q _ _ _ _ a (mem_forestNodes_self ha)).2.1
      simp [this]
    · have := buildCallLeaves_ok q _ _ _ _ nd h
      exact ⟨this.1, this.2.1, by rw [this.2.2]; rfl⟩

theorem insertLevel_map
    (build : Option String → List String → Nat → List TreeNode × List String × Nat)
    (fc : List (String × List (String × Nat))) :
    ∀ (cs : List (String × String × Nat)) (used : List String) (ctr : Nat),
      ((insertLevel build fc cs used ctr).1).map (fun nd => (nd.sym, nd.values.headD 0))
        = cs.map (fun c => (true, c.2.2)) := by
  intro cs
  induction cs with
  | nil => intro used ctr; rfl
  | cons c rest ih =>
      intro used ctr
      obtain ⟨qual, kind, lineno⟩ := c
      simp only [insertLevel, List.map_cons]
      exact congrArg _ (ih _ _)

theorem symLines_of_sym_map {l : List TreeNode} {cs : List (String × String × Nat)}
    (h : l.map (fun nd => (nd.sym, nd.values.headD 0)) = cs.map (fun c => (true, c.2.2))) :
    symLines l = cs.map (fun c => c.2.2) := by
  induction l generalizing cs with
  | nil =>
      cases cs with
      | nil => rfl
      | cons c cs => simp at h
  | cons nd rest ih =>
      cases cs with
      | nil => simp at h
      | cons c cs =>
          simp only [List.map_cons, List.cons.injEq, Prod.mk.injEq] at h
          obtain ⟨⟨hs, hv⟩, hrest⟩ := h
          simp only [symLines, List.filter_cons, hs, if_pos, List.map_cons, List.map]
          rw [hv]
          exact congrArg _ (ih hrest)

theorem callsPartOf_ok (fc : List (String × List (String × Nat))) (kind qual : String)
    (used : List String) (ctr : Nat) :
    ∀ nd ∈ forestNodes (callsPartOf fc kind qual used ctr).1,
      nd.isOpen = false ∧ nd.sym = false ∧ nd.children.filter (·.sym) = [] := by
  intro nd h
  unfold callsPartOf at h
  split at h
  · exact buildCallsSubtree_ok fc qual used ctr nd h
  · simp [forestNodes] at h

theorem symLines_callsPartOf (fc : List (String × List (String × Nat))) (kind qual : String)
    (used : List String) (ctr : Nat) :
    symLines (callsPartOf fc kind qual used ctr).1 = [] := by
  apply symLines_eq_nil
  intro nd h
  exact (callsPartOf_ok fc kind qual used ctr nd (mem_forestNodes_self h)).2.1

theorem insertLevel_nodesOk
    (build : Option String → List String → Nat → List TreeNode × List String × Nat)
    (fc : List (String × List (String × Nat)))
    (hb : ∀ q u c, nodesOk (build q u c).1 ∧ levelOk (build q u c).1) :
    ∀ (cs : List (String × String × Nat)) (used : List String) (ctr : Nat),
      nodesOk (insertLevel build fc cs used ctr).1 := by
  intro cs
  induction cs with
  | nil => intro used ctr nd h; simp [insertLevel, forestNodes] at h
  | cons c rest ih =>
      intro used ctr nd h
      obtain ⟨qual, kind, lineno⟩ := c
      simp only [insertLevel, forestNodes, subtreeNodes_def] at h
      rcases List.mem_append.mp h with h | h
      · rcases List.mem_cons.mp h with rfl | h
        · refine ⟨rfl, ?_⟩
          simp only [symLines_append, symLines_callsPartOf, List.append_nil]
          exact (hb _ _ _).2
        · simp only [forestNodes_append] at h
          rcases List.mem_append.mp h with h | h
          · exact (hb _ _ _).1 nd h
          · have := callsPartOf_ok fc kind qual _ _ nd h
            refine ⟨this.1, ?_⟩
            have hz : symLines nd.children = [] := by
              unfold symLines
              rw [this.2.2]
              rfl
            rw [hz]
            exact List.sorted_nil
      · exact ih _ _ nd h

theorem sorted_lines_sortByLine (l : List (String × String × Nat)) :
    List.Sorted (· ≤ ·) ((sortByLine l).map (fun c => c.2.2)) := by
  have hs : List.Sorted (fun a b => a.2.2 ≤ b.2.2) (sortByLine l) :=
    List.sorted_insertionSort _ l
  unfold List.Sorted at hs ⊢
  rw [List.pairwise_map]
  exact hs

theorem insertChildren_ok (fc : List (String × List (String × Nat)))
    (mp : Option String → List (String × String × Nat)) :
    ∀ (fuel : Nat) (pq : Option String) (used : List String) (ctr : Nat),
      nodesOk (insertChildren fc mp fuel pq used ctr).1 ∧
        levelOk (insertChildren fc mp fuel pq used ctr).1 := by
  intro fuel
  induction fuel with
  | zero =>
      intro pq used ctr
      constructor
      · intro nd h
        simp [insertChildren, forestNodes] at h
      · exact List.sorted_nil
  | succ fuel ih =>
      intro pq used ctr
      constructor
      · exact insertLevel_nodesOk _ fc (fun q u c => ih q u c) _ used ctr
      · show List.Sorted (· ≤ ·) (symLines (insertLevel _ fc (sortByLine (mp pq)) used ctr).1)
        rw [symLines_of_sym_map (insertLevel_map _ fc (sortByLine (mp pq)) used ctr)]
        exact sorted_lines_sortByLine (mp pq)

theorem restoreNode_def (p : List String) (nd : TreeNode) :
    restoreNode p nd = ⟨nd.iid, nd.text, nd.values,
      nd.isOpen || (!(nd.iid == "") && p.contains nd.iid), nd.sym,
      restoreForest p nd.children⟩ := by
  cases nd
  rfl

theorem restore_forest_mem (p : List String) (l : List TreeNode) (nd : TreeNode)
    (h : nd ∈ forestNodes (restoreForest p l)) :
    ∃ nd₀, nd₀ ∈ forestNodes l ∧ nd = restoreNode p nd₀ := by
  refine forestNodes.induct
    (fun t => ∀ x, x ∈ subtreeNodes (restoreNode p t) →
      ∃ x₀, x₀ ∈ subtreeNodes t ∧ x = restoreNode p x₀)
    (fun l => ∀ x, x ∈ forestNodes (restoreForest p l) →
      ∃ x₀, x₀ ∈ forestNodes l ∧ x = restoreNode p x₀)
    ?_ ?_ ?_ l nd h
  · intro iid text values op sym children ih x hx
    rw [restoreNode_def, subtreeNodes_def] at hx
    rcases List.mem_cons.mp hx with rfl | hx
    · refine ⟨⟨iid, text, values, op, sym, children⟩, ?_, ?_⟩
      · rw [subtreeNodes_def]
        exact List.mem_cons_self _ _
      · rw [restoreNode_def]
    · obtain ⟨x₀, hx₀, rfl⟩ := ih x hx
      refine ⟨x₀, ?_, rfl⟩
      rw [subtreeNodes_def]
      exact List.mem_cons_of_mem _ hx₀
  · intro x hx
    simp [restoreForest, forestNodes] at hx
  · intro t rest ih1 ih2 x hx
    rw [restoreForest, forestNodes] at hx
    rcases List.mem_append.mp hx with hx | hx
    · obtain ⟨x₀, hx₀, rfl⟩ := ih1 x hx
      refine ⟨x₀, ?_, rfl⟩
      rw [forestNodes]
      exact List.mem_append_left _ hx₀
    · obtain ⟨x₀, hx₀, rfl⟩ := ih2 x hx
      refine ⟨x₀, ?_, rfl⟩
      rw [forestNodes]
      exact List.mem_append_right _ hx₀

theorem symLines_restore (p : List String) (l : List TreeNode) :
    symLines (restoreForest p l) = symLines l := by
  induction l with
  | nil => rfl
  | cons nd rest ih =>
      rw [restoreForest]
      cases hs : nd.sym with
      | true =>
          simp only [symLines, List.filter_cons, restoreNode_def, hs, if_pos]
          simp only [symLines] at ih
          simpa using ih
      | false =>
          simp only [symLines, List.filter_cons, restoreNode_def, hs]
          simp only [symLines] at ih
          simpa using ih

theorem set_tree_items_roots (t : Tree) (fc : List (String × List (String × Nat)))
    (items : List Item) :
    (set_tree_items t fc items).roots
      = restoreForest (expandedIids t.roots)
          (insertChildren fc (mappingOf items) (items.length + 1) none [""] 0).1 := rfl

theorem if_isEmpty_self (l : List String) :
    (if l.isEmpty then ([] : List String) else l) = l := by
  cases l <;> rfl

theorem set_tree_items_selection (t : Tree) (fc : List (String × List (String × Nat)))
    (items : List Item) :
    (set_tree_items t fc items).selection
      = t.selection.filter (fun s => (allIids (set_tree_items t fc items).roots).contains s) := by
  show (if (t.selection.filter _).isEmpty then [] else t.selection.filter _) = _
  rw [if_isEmpty_self]
  rfl

/-- C1: across every rebuild of the displayed tree, (i) an item of the new
tree is open exactly when its identity was among the expanded identities
captured before the rebuild (so every previously expanded identity that
still exists stays expanded, previously expanded identities that no longer
exist are silently dropped, and nothing else is expanded); (ii) the new
selection is exactly the subset of the prior selection whose identities
still exist; and (iii) when no prior-selected identity survives, the
selection is empty — and being a total function, the rebuild raises
nothing on any input. -/
theorem set_tree_items_state_preservation (t : Tree)
    (fc : List (String × List (String × Nat))) (items : List Item) :
    (∀ nd ∈ forestNodes (set_tree_items t fc items).roots,
        nd.isOpen = true ↔ (nd.iid ∈ expandedIids t.roots ∧ nd.iid ≠ "")) ∧
      (set_tree_items t fc items).selection
        = t.selection.filter (fun s =>
            (allIids (set_tree_items t fc items).roots).contains s) ∧
      (t.selection.filter (fun s =>
            (allIids (set_tree_items t fc items).roots).contains s) = [] →
        (set_tree_items t fc items).selection = []) := by
  refine ⟨?_, set_tree_items_selection t fc items, ?_⟩
  · intro nd hnd
    rw [set_tree_items_roots] at hnd
    obtain ⟨nd₀, h₀, rfl⟩ := restore_forest_mem _ _ nd hnd
    have hclosed :=
      ((insertChildren_ok fc (mappingOf items) (items.length + 1) none [""] 0).1 nd₀ h₀).1
    rw [restoreNode_def]
    simp only [hclosed, Bool.false_or, Bool.and_eq_true, Bool.not_eq_true',
      beq_eq_false_iff_ne, ne_eq, List.elem_iff]
    exact and_comm
  · intro h
    rw [set_tree_items_selection t fc items, h]

/-- C8: after every rebuild of the displayed tree (whatever order the
extraction records arrive in), the class/function rows of every sibling
list — the root level and the children of every displayed item — appear
sorted by ascending line number; the synthetic calls rows are not
class/function rows and carry no such ordering. -/
theorem set_tree_items_children_sorted (t : Tree)
    (fc : List (String × List (String × Nat))) (items : List Item) :
    List.Sorted (· ≤ ·) (symLines (set_tree_items t fc items).roots) ∧
      ∀ nd ∈ forestNodes (set_tree_items t fc items).roots,
        List.Sorted (· ≤ ·) (symLines nd.children) := by
  constructor
  · rw [set_tree_items_roots, symLines_restore]
    exact (insertChildren_ok fc (mappingOf items) (items.length + 1) none [""] 0).2
  · intro nd hnd
    rw [set_tree_items_roots] at hnd
    obtain ⟨nd₀, h₀, rfl⟩ := restore_forest_mem _ _ nd hnd
    rw [restoreNode_def]
    show List.Sorted (· ≤ ·) (symLines (restoreForest _ nd₀.children))
    rw [symLines_restore]
    exact ((insertChildren_ok fc (mappingOf items) (items.length + 1) none [""] 0).1 nd₀ h₀).2

/-! ### Claim C3: qualified-name uniqueness

The dot-join of name paths is injective on nonempty paths of dot-free
names, via the uniqueness of the decomposition at the last separator. -/
theorem append_cons_inj {α : Type} {x : α} :
    ∀ (u v s t : List α), x ∉ u → x ∉ v → u ++ x :: s = v ++ x :: t → u = v ∧ s = t := by
  intro u
  induction u with
  | nil =>
      intro v s t _ hv h
      cases v with
      | nil =>
          simp only [List.nil_append, List.cons.injEq] at h
          exact ⟨rfl, h.2⟩
      | cons y v =>
          simp only [List.nil_append, List.cons_append, List.cons.injEq] at h
          exact absurd (h.1 ▸ List.mem_cons_self y v) hv
  | cons a u ih =>
      intro v s t hu hv h
      cases v with
      | nil =>
          simp only [List.cons_append, List.nil_append, List.cons.injEq] at h
          exact absurd (h.1 ▸ List.mem_cons_self a u) hu
      | cons b v =>
          simp only [List.cons_append, List.cons.injEq] at h
          obtain ⟨rfl, h⟩ := h
          have hu₁ : x ∉ u := fun hm => hu (List.mem_cons_of_mem _ hm)
          have hv₁ : x ∉ v := fun hm => hv (List.mem_cons_of_mem _ hm)
          obtain ⟨rfl, hst⟩ := ih v s t hu₁ hv₁ h
          exact ⟨rfl, hst⟩

theorem append_cons_inj_last {α : Type} {x : α} (u v s t : List α)
    (hs : x ∉ s) (ht : x ∉ t) (h : u ++ x :: s = v ++ x :: t) : u = v ∧ s = t := by
  have hr : s.reverse ++ x :: u.reverse = t.reverse ++ x :: v.reverse := by
    have := congrArg List.reverse h
    simpa [List.reverse_append] using this
  have hs' : x ∉ s.reverse := by simpa using hs
  have ht' : x ∉ t.reverse := by simpa using ht
  obtain ⟨h₁, h₂⟩ := append_cons_inj _ _ _ _ hs' ht' hr
  constructor
  · simpa using congrArg List.reverse h₂
  · simpa using congrArg List.reverse h₁

theorem data_append_sep (a b : String) :
    (a ++ "." ++ b).data = a.data ++ '.' :: b.data := by
  rw [String.data_append, String.data_append]
  have hdot : (".".data : List Char) = ['.'] := by decide
  rw [hdot, List.append_assoc]
  rfl

theorem hasDot_false_not_mem {s : String} (h : hasDot s = false) : '.' ∉ s.data := by
  simpa [hasDot] using h

theorem hasDot_sep (a b : String) : hasDot (a ++ "." ++ b) = true := by
  simp [hasDot, data_append_sep]

theorem append_sep_inj {p₁ p₂ n₁ n₂ : String} (h₁ : hasDot n₁ = false)
    (h₂ : hasDot n₂ = false) (h : p₁ ++ "." ++ n₁ = p₂ ++ "." ++ n₂) :
    p₁ = p₂ ∧ n₁ = n₂ := by
  have hd : p₁.data ++ '.' :: n₁.data = p₂.data ++ '.' :: n₂.data := by
    have := congrArg String.data h
    rwa [data_append_sep, data_append_sep] at this
  obtain ⟨hp, hn⟩ := append_cons_inj_last _ _ _ _
    (hasDot_false_not_mem h₁) (hasDot_false_not_mem h₂) hd
  exact ⟨String.ext hp, String.ext hn⟩

theorem joinPath_append_last (p : List String) (n : String) (hp : p ≠ []) :
    joinPath (p ++ [n]) = joinPath p ++ "." ++ n := by
  cases p with
  | nil => exact absurd rfl hp
  | cons h t =>
      show ((t ++ [n]).foldl (fun a x => a ++ "." ++ x) h) = _
      rw [List.foldl_append]
      rfl

theorem joinPath_inj : ∀ (p₁ p₂ : List String), p₁ ≠ [] → p₂ ≠ [] →
    (∀ x ∈ p₁, hasDot x = false) → (∀ x ∈ p₂, hasDot x = false) →
    joinPath p₁ = joinPath p₂ → p₁ = p₂ := by
  intro p₁
  induction p₁ using List.reverseRecOn with
  | nil => intro p₂ h; exact absurd rfl h
  | append_singleton l₁ a₁ ih =>
      intro p₂ _ hne₂ hd₁ hd₂ heq
      rcases List.eq_nil_or_concat p₂ with rfl | ⟨l₂, a₂, rfl⟩
      · exact absurd rfl hne₂
      · simp only [List.concat_eq_append] at hd₂ heq ⊢
        have ha₁ : hasDot a₁ = false := hd₁ a₁ (List.mem_append_right _ (List.mem_cons_self _ _))
        have ha₂ : hasDot a₂ = false := hd₂ a₂ (List.mem_append_right _ (List.mem_cons_self _ _))
        by_cases hl₁ : l₁ = []
        · by_cases hl₂ : l₂ = []
          · subst hl₁; subst hl₂
            show ([] : List String) ++ [a₁] = [] ++ [a₂]
            have : a₁ = a₂ := heq
            rw [this]
          · subst hl₁
            rw [joinPath_append_last l₂ a₂ hl₂] at heq
            have : joinPath ([] ++ [a₁]) = a₁ := rfl
            rw [this] at heq
            rw [heq] at ha₁
            rw [hasDot_sep] at ha₁
            cases ha₁
        · by_cases hl₂ : l₂ = []
          · subst hl₂
            rw [joinPath_append_last l₁ a₁ hl₁] at heq
            have : joinPath ([] ++ [a₂]) = a₂ := rfl
            rw [this] at heq
            rw [← heq] at ha₂
            rw [hasDot_sep] at ha₂
            cases ha₂
          · rw [joinPath_append_last l₁ a₁ hl₁, joinPath_append_last l₂ a₂ hl₂] at heq
            obtain ⟨hj, ha⟩ := append_sep_inj ha₁ ha₂ heq
            have hsub₁ : ∀ x ∈ l₁, hasDot x = false := fun x hx =>
              hd₁ x (List.mem_append_left _ hx)
            have hsub₂ : ∀ x ∈ l₂, hasDot x = false := fun x hx =>
              hd₂ x (List.mem_append_left _ hx)
            rw [ih l₂ hl₁ hl₂ hsub₁ hsub₂ hj, ha]

theorem pathKey_append (path : List String) (n : String) :
    pathKey (path ++ [n]) = some (joinPath (path ++ [n])) := by
  cases path with
  | nil => rfl
  | cons h t => rw [List.cons_append]; rfl

theorem mkQual_pathKey (path : List String) (n : String) :
    mkQual (pathKey path) n = joinPath (path ++ [n]) := by
  cases path with
  | nil => rfl
  | cons h t =>
      show joinPath (h :: t) ++ "." ++ n = _
      rw [joinPath_append_last (h :: t) n (by simp)]

theorem visitP_eq_singleton (s : Stmt) (path : List String) :
    visitP s path = visitPL [s] path := by
  rw [visitPL, visitPL, List.append_nil]

theorem levelNames_eq_singleton (s : Stmt) :
    levelNames s = levelNamesL [s] := by
  rw [levelNamesL, levelNamesL, List.append_nil]

/-- The qualified names the extraction emits are exactly the dot-joins of
the emitted name paths, in order. -/
theorem visit_quals (l : List Stmt) (path : List String) :
    ((visitStmts l (pathKey path)).1).map (·.qual) = (visitPL l path).map joinPath := by
  refine visitPL.induct
    (fun s path => ((visitStmt s (pathKey path)).1).map (·.qual)
      = (visitP s path).map joinPath)
    (fun l path => ((visitStmts l (pathKey path)).1).map (·.qual)
      = (visitPL l path).map joinPath)
    ?_ ?_ ?_ ?_ ?_ ?_ ?_ l path
  · intro n ln b path ih
    rw [pathKey_append] at ih
    simp only [visitStmt, visitP, List.map_cons]
    rw [mkQual_pathKey]
    exact congrArg _ ih
  · intro n ln b path ih
    rw [pathKey_append] at ih
    simp only [visitStmt, visitP, List.map_cons]
    rw [mkQual_pathKey]
    exact congrArg _ ih
  · intro n ln b path ih
    rw [pathKey_append] at ih
    simp only [visitStmt, visitP, List.map_cons]
    rw [mkQual_pathKey]
    exact congrArg _ ih
  · intro v path
    rfl
  · intro es b path ih
    simp only [visitStmt, visitP]
    exact ih
  · intro path
    rfl
  · intro s rest path ih1 ih2
    simp only [visitStmts, visitPL, List.map_append]
    rw [ih1, ih2]

/-- Every emitted name path extends the enclosing path by a definition
name of the level being visited. -/
theorem visit_paths_shape (l : List Stmt) (path : List String) :
    ∀ q ∈ visitPL l path, ∃ n rest, n ∈ levelNamesL l ∧ q = path ++ n :: rest := by
  refine visitPL.induct
    (fun s path => ∀ q ∈ visitP s path,
      ∃ n rest, n ∈ levelNames s ∧ q = path ++ n :: rest)
    (fun l path => ∀ q ∈ visitPL l path,
      ∃ n rest, n ∈ levelNamesL l ∧ q = path ++ n :: rest)
    ?_ ?_ ?_ ?_ ?_ ?_ ?_ l path
  · intro n ln b path ih q hq
    rw [visitP] at hq
    rcases List.mem_cons.mp hq with rfl | hq
    · exact ⟨n, [], by simp [levelNames], by simp⟩
    · obtain ⟨m, rest, _, rfl⟩ := ih q hq
      exact ⟨n, m :: rest, by simp [levelNames], by simp⟩
  · intro n ln b path ih q hq
    rw [visitP] at hq
    rcases List.mem_cons.mp hq with rfl | hq
    · exact ⟨n, [], by simp [levelNames], by simp⟩
    · obtain ⟨m, rest, _, rfl⟩ := ih q hq
      exact ⟨n, m :: rest, by simp [levelNames], by simp⟩
  · intro n ln b path ih q hq
    rw [visitP] at hq
    rcases List.mem_cons.mp hq with rfl | hq
    · exact ⟨n, [], by simp [levelNames], by simp⟩
    · obtain ⟨m, rest, _, rfl⟩ := ih q hq
      exact ⟨n, m :: rest, by simp [levelNames], by simp⟩
  · intro v path q hq
    simp [visitP] at hq
  · intro es b path ih q hq
    rw [visitP] at hq
    obtain ⟨m, rest, hm, rfl⟩ := ih q hq
    exact ⟨m, rest, by simpa [levelNames] using hm, rfl⟩
  · intro path q hq
    simp [visitPL] at hq
  · intro s rest path ih1 ih2 q hq
    rw [visitPL] at hq
    rcases List.mem_append.mp hq with hq | hq
    · obtain ⟨m, r, hm, rfl⟩ := ih1 q hq
      exact ⟨m, r, by simp [levelNamesL, hm], rfl⟩
    · obtain ⟨m, r, hm, rfl⟩ := ih2 q hq
      exact ⟨m, r, by simp [levelNamesL, hm], rfl⟩

/-- In a well-formed tree, every name on every emitted path is dot-free. -/
theorem visit_paths_dotfree (l : List Stmt) (path : List String)
    (hw : wfInner l = true) (hp : ∀ x ∈ path, hasDot x = false) :
    ∀ q ∈ visitPL l path, ∀ x ∈ q, hasDot x = false := by
  refine visitPL.induct
    (fun s path => wfStmt s = true → (∀ x ∈ path, hasDot x = false) →
      ∀ q ∈ visitP s path, ∀ x ∈ q, hasDot x = false)
    (fun l path => wfInner l = true → (∀ x ∈ path, hasDot x = false) →
      ∀ q ∈ visitPL l path, ∀ x ∈ q, hasDot x = false)
    ?_ ?_ ?_ ?_ ?_ ?_ ?_ l path hw hp
  · intro n ln b path ih hwf hpath q hq x hx
    simp only [wfStmt, Bool.and_eq_true, Bool.not_eq_true'] at hwf
    have hpath₁ : ∀ x ∈ path ++ [n], hasDot x = false := by
      intro x hx
      rcases List.mem_append.mp hx with hx | hx
      · exact hpath x hx
      · rw [List.mem_singleton.mp hx]
        exact hwf.1.1
    rw [visitP] at hq
    rcases List.mem_cons.mp hq with rfl | hq
    · exact hpath₁ x hx
    · exact ih hwf.2 hpath₁ q hq x hx
  · intro n ln b path ih hwf hpath q hq x hx
    simp only [wfStmt, Bool.and_eq_true, Bool.not_eq_true'] at hwf
    have hpath₁ : ∀ x ∈ path ++ [n], hasDot x = false := by
      intro x hx
      rcases List.mem_append.mp hx with hx | hx
      · exact hpath x hx
      · rw [List.mem_singleton.mp hx]
        exact hwf.1.1
    rw [visitP] at hq
    rcases List.mem_cons.mp hq with rfl | hq
    · exact hpath₁ x hx
    · exact ih hwf.2 hpath₁ q hq x hx
  · intro n ln b path ih hwf hpath q hq x hx
    simp only [wfStmt, Bool.and_eq_true, Bool.not_eq_true'] at hwf
    have hpath₁ : ∀ x ∈ path ++ [n], hasDot x = false := by
      intro x hx
      rcases List.mem_append.mp hx with hx | hx
      · exact hpath x hx
      · rw [List.mem_singleton.mp hx]
        exact hwf.1.1
    rw [visitP] at hq
    rcases List.mem_cons.mp hq with rfl | hq
    · exact hpath₁ x hx
    · exact ih hwf.2 hpath₁ q hq x hx
  · intro v path _ _ q hq
    simp [visitP] at hq
  · intro es b path ih hwf hpath q hq x hx
    simp only [wfStmt] at hwf
    rw [visitP] at hq
    exact ih hwf hpath q hq x hx
  · intro path _ _ q hq
    simp [visitPL] at hq
  · intro s rest path ih1 ih2 hwf hpath q hq x hx
    simp only [wfInner, Bool.and_eq_true] at hwf
    rw [visitPL] at hq
    rcases List.mem_append.mp hq with hq | hq
    · exact ih1 hwf.1 hpath q hq x hx
    · exact ih2 hwf.2 hpath q hq x hx

/-- In a well-formed tree, the emitted name paths are pairwise distinct. -/
theorem visit_paths_nodup (l : List Stmt) (path : List String)
    (hn : (levelNamesL l).Nodup) (hw : wfInner l = true) : (visitPL l path).Nodup := by
  refine visitPL.induct
    (fun s path => (levelNames s).Nodup → wfStmt s = true → (visitP s path).Nodup)
    (fun l path => (levelNamesL l).Nodup → wfInner l = true → (visitPL l path).Nodup)
    ?_ ?_ ?_ ?_ ?_ ?_ ?_ l path hn hw
  · intro n ln b path ih _ hwf
    simp only [wfStmt, Bool.and_eq_true, decide_eq_true_eq] at hwf
    rw [visitP]
    refine List.nodup_cons.mpr ⟨?_, ih hwf.1.2 hwf.2⟩
    intro hmem
    obtain ⟨m, rest, _, heq⟩ := visit_paths_shape b (path ++ [n]) _ hmem
    have := congrArg List.length heq
    simp at this
  · intro n ln b path ih _ hwf
    simp only [wfStmt, Bool.and_eq_true, decide_eq_true_eq] at hwf
    rw [visitP]
    refine List.nodup_cons.mpr ⟨?_, ih hwf.1.2 hwf.2⟩
    intro hmem
    obtain ⟨m, rest, _, heq⟩ := visit_paths_shape b (path ++ [n]) _ hmem
    have := congrArg List.length heq
    simp at this
  · intro n ln b path ih _ hwf
    simp only [wfStmt, Bool.and_eq_true, decide_eq_true_eq] at hwf
    rw [visitP]
    refine List.nodup_cons.mpr ⟨?_, ih hwf.1.2 hwf.2⟩
    intro hmem
    obtain ⟨m, rest, _, heq⟩ := visit_paths_shape b (path ++ [n]) _ hmem
    have := congrArg List.length heq
    simp at this
  · intro v path _ _
    simp [visitP]
  · intro es b path ih hnod hwf
    simp only [levelNames] at hnod
    simp only [wfStmt] at hwf
    rw [visitP]
    exact ih hnod hwf
  · intro path _ _
    simp [visitPL]
  · intro s rest path ih1 ih2 hnod hwf
    simp only [wfInner, Bool.and_eq_true] at hwf
    simp only [levelNamesL] at hnod
    obtain ⟨hn₁, hn₂, hdisj⟩ := List.nodup_append.mp hnod
    rw [visitPL, List.nodup_append]
    refine ⟨ih1 hn₁ hwf.1, ih2 hn₂ hwf.2, ?_⟩
    intro q hq₁ hq₂
    rw [visitP_eq_singleton] at hq₁
    obtain ⟨m₁, r₁, hm₁, he₁⟩ := visit_paths_shape [s] path q hq₁
    obtain ⟨m₂, r₂, hm₂, he₂⟩ := visit_paths_shape rest path q hq₂
    rw [← levelNames_eq_singleton] at hm₁
    have hmm : m₁ = m₂ := by
      have := he₁ ▸ he₂
      have h₂ := List.append_cancel_left (he₁.symm.trans he₂)
      exact (List.cons.injEq _ _ _ _ ▸ h₂).1
    exact hdisj hm₁ (hmm ▸ hm₂)

/-- C3 (amended): for every source tree whose definition names are
dot-free (as Python identifiers always are) and in which no two sibling
definitions — definitions qualified against the same enclosing path —
share a short name, no two extraction records of one pass share a
qualified name. (Siblings that do share a short name produce identical,
not distinct, qualified names: see the counterexample.) -/
theorem extraction_quals_nodup (parsed : List Stmt) (hwf : wfBody parsed = true) :
    (((visitStmts parsed none).1).map (·.qual)).Nodup := by
  have hsplit : (levelNamesL parsed).Nodup ∧ wfInner parsed = true := by
    have h := hwf
    unfold wfBody at h
    simp only [Bool.and_eq_true, decide_eq_true_eq] at h
    exact h
  have hb := visit_quals parsed []
  rw [show pathKey [] = none from rfl] at hb
  rw [hb]
  refine List.Nodup.map_on ?_ (visit_paths_nodup parsed [] hsplit.1 hsplit.2)
  intro x hx y hy hxy
  obtain ⟨n₁, r₁, _, hx₁⟩ := visit_paths_shape parsed [] x hx
  obtain ⟨n₂, r₂, _, hy₁⟩ := visit_paths_shape parsed [] y hy
  have hnex : x ≠ [] := by rw [hx₁]; simp
  have hney : y ≠ [] := by rw [hy₁]; simp
  have hdf := visit_paths_dotfree parsed [] hsplit.2 (by intro z hz; cases hz)
  exact joinPath_inj x y hnex hney (hdf x hx) (hdf y hy) hxy

/-- C3, witness: a class `A` with method `f` plus an unrelated top-level
`f` is well-formed and yields the pairwise distinct qualified names
`A`, `A.f`, `f`. -/
theorem extraction_quals_nodup_witness :
    wfBody [Stmt.classDef "A" 1 [Stmt.funcDef "f" 2 []], Stmt.funcDef "f" 3 []] = true ∧
      (((visitStmts [Stmt.classDef "A" 1 [Stmt.funcDef "f" 2 []], Stmt.funcDef "f" 3 []]
          none).1).map (·.qual)).Nodup :=
  ⟨by decide,
    extraction_quals_nodup [Stmt.classDef "A" 1 [Stmt.funcDef "f" 2 []],
      Stmt.funcDef "f" 3 []] (by decide)⟩

/-- C3, counterexample to the claim as stated: two sibling top-level
functions both named `f` produce the qualified names `["f", "f"]` — the
same qualified name twice, not distinct ones — so one extraction pass can
emit two records sharing a qualified name. -/
theorem extraction_quals_duplicate :
    ((visitStmts [Stmt.funcDef "f" 1 [], Stmt.funcDef "f" 2 []] none).1).map (·.qual)
        = ["f", "f"] ∧
      ¬ (((visitStmts [Stmt.funcDef "f" 1 [], Stmt.funcDef "f" 2 []] none).1).map
          (·.qual)).Nodup := by
  constructor
  · decide
  · intro h
    have : (["f", "f"] : List String).Nodup := by
      have he : ((visitStmts [Stmt.funcDef "f" 1 [], Stmt.funcDef "f" 2 []] none).1).map
          (·.qual) = ["f", "f"] := by decide
      rwa [he] at h
    simp at this

end ClassOutline
